import Mathlib

/-!
Verification of the masked-token-corruption engine
(`transformers_lightning/language_modeling/masked_language_modeling.py`,
class `MaskedLanguageModeling`).

Modelling choices:
* A batch tensor of shape `[b, s]` is a function `Fin b → Fin s → α`.
* `float32` arithmetic is modelled over `ℚ`.
* The random draw sequence is passed explicitly as a `Draws` record: each
  `torch.bernoulli(P)` call consumes a same-shape matrix of uniform values
  `u ∈ [0, 1)` and yields `u < p`; `torch.randint(n, shape)` consumes a
  same-shape integer matrix whose entries lie in `[0, n)`.
* Fallible steps (`weights[labels]` advanced indexing, the mask-token
  configuration check) return `Except MLMError`.
-/

namespace MLM

/-- Modelled from the spec: `IGNORE_IDX` is imported from
`transformers_lightning.language_modeling`, whose source is not in the
repository snapshot; the spec fixes the reserved ignore marker to the
reference value -100. -/
def IGNORE_IDX : Int := -100

/-- The narrow tokenizer capability consumed by the engine (spec section 6):
optional mask-token id, optional pad-token id, vocabulary size
(`len(tokenizer)`), per-position special-token classification
(`get_special_tokens_mask(row, already_has_special_tokens=True)` read at a
position), and the word-continuation predicate used by the continuation
detector (decode + marker-convention check collapsed into one predicate). -/
structure Tokenizer where
  maskTokenId : Option Int
  padTokenId : Option Int
  vocabSize : Nat
  specialTokensMask : List Int → Nat → Bool
  isContinuation : Int → Bool

/-- Engine configuration (`MaskedLanguageModeling.__init__`).  `zScore`
stands for the value `st.norm.ppf(1 - reliability / 2)` computed by the
external statistics library at the configured reliability level; it is
carried in the configuration because the library function itself is an
external collaborator. -/
structure MLMConfig where
  mlmProbability : ℚ
  reliability : ℚ
  zScore : ℚ
  wholeWordMasking : Bool

/-- The random draw sequence consumed by one `__call__` invocation:
uniforms for `torch.bernoulli(probability_matrix)` (line 105), for the
`Bernoulli(0.8)` draw (line 109), for the `Bernoulli(0.5)` draw
(lines 113-115), and the outputs of `torch.randint(len(tokenizer), shape)`
(line 116). -/
structure Draws (b s : Nat) where
  maskedDraw : Fin b → Fin s → ℚ
  replacedDraw : Fin b → Fin s → ℚ
  randomDraw : Fin b → Fin s → ℚ
  randWords : Fin b → Fin s → Int

/-- Well-formedness of a draw sequence: bernoulli uniforms lie in `[0, 1)`
and `torch.randint(vocab, shape)` outputs lie in `[0, vocab)`. -/
def Draws.Wf {b s : Nat} (d : Draws b s) (vocab : Nat) : Prop :=
  (∀ i j, 0 ≤ d.maskedDraw i j ∧ d.maskedDraw i j < 1) ∧
  (∀ i j, 0 ≤ d.replacedDraw i j ∧ d.replacedDraw i j < 1) ∧
  (∀ i j, 0 ≤ d.randomDraw i j ∧ d.randomDraw i j < 1) ∧
  (∀ i j, 0 ≤ d.randWords i j ∧ d.randWords i j < (vocab : Int))

/-- Errors surfaced by `__call__`: the missing-mask-token `ValueError`
(lines 72-75) and the indexing error raised by `weights[labels]` when a
token id has no aligned weight (line 86). -/
inductive MLMError where
  | configError : MLMError
  | shapeError : MLMError
deriving DecidableEq

/-- Rational square-root approximation standing for the floating-point
square root used when standardizing weights. -/
def ratSqrt (q : ℚ) : ℚ :=
  if q ≤ 0 then 0 else (Nat.sqrt (q.num.toNat * q.den) : ℚ) / (q.den : ℚ)

/-- Modelled from the spec: `utils.normalize_standard(x, dim=-1)` is
imported from `transformers_lightning.utils`, whose source is not in the
repository snapshot; the spec (section 4.2) says the weights are
standardized to zero mean and unit variance along the token dimension,
i.e. each row value `x` is mapped to `(x - mean) / std`. -/
def normalizeStandard {s : Nat} (x : Fin s → ℚ) : Fin s → ℚ :=
  let μ : ℚ := (∑ j, x j) / (s : ℚ)
  let σ : ℚ := ratSqrt ((∑ j, (x j - μ) ^ 2) / (s : ℚ))
  fun j => (x j - μ) / σ

/-- Torch 1-D advanced indexing `w[id]`: a negative index counts from the
end; an index outside `[-len, len)` raises, modelled as `none`. -/
def torchIndex (w : List ℚ) (id : Int) : Option ℚ :=
  let k : Int := if id < 0 then id + (w.length : Int) else id
  if 0 ≤ k then w.get? k.toNat else none

/-- One entry of `torch.clip(x, min=0, max=1)`. -/
def clip01 (q : ℚ) : ℚ := max 0 (min 1 q)

/-- Elementwise `tensor.masked_fill_(mask, value)`. -/
def maskedFill {b s : Nat} (m : Fin b → Fin s → ℚ) (mask : Fin b → Fin s → Bool)
    (v : ℚ) : Fin b → Fin s → ℚ :=
  fun i j => if mask i j then v else m i j

/-- Modelled from the spec: `whole_word_tails_mask` is imported from
`transformers_lightning.language_modeling.utils`, whose source is not in
the repository snapshot; the spec (section 4.1) says each token is marked
`true` iff its decoded surface form carries the word-continuation
marker convention, and the first token of every sequence is always
`false`. -/
def wholeWordTailsMask {b s : Nat} (tok : Tokenizer)
    (inputs : Fin b → Fin s → Int) : Fin b → Fin s → Bool :=
  fun i j => if j.val = 0 then false else tok.isContinuation (inputs i j)

/-- Lines 81-87: the probability matrix before filtering.  Unweighted case:
a constant matrix at the base rate.  Weighted case: look the weights up by
token id (`weights[labels]`), standardize each row, apply
`mlm_probability * (1 + standardized / z_score)` and clip into `[0, 1]`;
a failing lookup surfaces the indexing error. -/
def probabilityMatrix {b s : Nat} (cfg : MLMConfig)
    (weights : Option (List ℚ)) (labels : Fin b → Fin s → Int) :
    Except MLMError (Fin b → Fin s → ℚ) :=
  match weights with
  | none => .ok fun _ _ => cfg.mlmProbability
  | some w =>
    if h : ∀ i j, (torchIndex w (labels i j)).isSome then
      let looked : Fin b → Fin s → ℚ :=
        fun i j => (torchIndex w (labels i j)).get (h i j)
      let normed : Fin b → Fin s → ℚ := fun i => normalizeStandard (looked i)
      .ok fun i j => clip01 (cfg.mlmProbability * (1 + normed i j / cfg.zScore))
    else .error .shapeError

/-- Lines 90-91: the continuation mask actually used by the call: the
mask given by the caller when supplied, the internally computed one when whole-word
masking is on and none was supplied, nothing otherwise. -/
def effectiveWordsTails {b s : Nat} (tok : Tokenizer) (cfg : MLMConfig)
    (inputs : Fin b → Fin s → Int)
    (wordsTails : Option (Fin b → Fin s → Bool)) :
    Option (Fin b → Fin s → Bool) :=
  if wordsTails.isNone && cfg.wholeWordMasking then
    some (wholeWordTailsMask tok inputs)
  else wordsTails

/-- Lines 93-95: in whole-word mode, zero the probability at continuation
positions. -/
def filterWordsTails {b s : Nat} (cfg : MLMConfig) (pm : Fin b → Fin s → ℚ)
    (wt : Option (Fin b → Fin s → Bool)) : Fin b → Fin s → ℚ :=
  if cfg.wholeWordMasking then
    maskedFill pm (wt.getD fun _ _ => false) 0
  else pm

/-- Lines 97-100: zero the probability at special-token positions. -/
def filterSpecial {b s : Nat} (tok : Tokenizer) (labels : Fin b → Fin s → Int)
    (pm : Fin b → Fin s → ℚ) : Fin b → Fin s → ℚ :=
  maskedFill pm (fun i j => tok.specialTokensMask (List.ofFn (labels i)) j.val) 0

/-- Lines 102-104: zero the probability at padding positions, when the
tokenizer defines a pad token. -/
def filterPadding {b s : Nat} (tok : Tokenizer) (labels : Fin b → Fin s → Int)
    (pm : Fin b → Fin s → ℚ) : Fin b → Fin s → ℚ :=
  match tok.padTokenId with
  | some p => maskedFill pm (fun i j => labels i j == p) 0
  | none => pm

/-- Lines 81-104 composed: the filtered probability matrix fed to the
sampler. -/
def filteredProbabilityMatrix {b s : Nat} (tok : Tokenizer) (cfg : MLMConfig)
    (inputs : Fin b → Fin s → Int) (weights : Option (List ℚ))
    (wordsTails : Option (Fin b → Fin s → Bool)) :
    Except MLMError (Fin b → Fin s → ℚ) :=
  match probabilityMatrix cfg weights inputs with
  | .error e => .error e
  | .ok pm0 =>
    let pm1 := filterWordsTails cfg pm0 (effectiveWordsTails tok cfg inputs wordsTails)
    let pm2 := filterSpecial tok inputs pm1
    .ok (filterPadding tok inputs pm2)

/-- Line 105: `torch.bernoulli(probability_matrix).bool()` under the
explicit uniform draws. -/
def maskedIndicesOf {b s : Nat} (pm : Fin b → Fin s → ℚ) (d : Draws b s) :
    Fin b → Fin s → Bool :=
  fun i j => d.maskedDraw i j < pm i j

/-- Line 106: `labels[~masked_indices] = IGNORE_IDX`. -/
def labelsOf {b s : Nat} (inputs : Fin b → Fin s → Int)
    (mi : Fin b → Fin s → Bool) : Fin b → Fin s → Int :=
  fun i j => if mi i j then inputs i j else IGNORE_IDX

/-- Line 109: `bernoulli(0.8) & masked_indices`; `mkRat 4 5` is the
literal `0.8`. -/
def indicesReplacedOf {b s : Nat} (d : Draws b s)
    (mi : Fin b → Fin s → Bool) : Fin b → Fin s → Bool :=
  fun i j => (d.replacedDraw i j < mkRat 4 5) && mi i j

/-- Lines 113-115: `bernoulli(0.5) & masked_indices & ~indices_replaced`;
`mkRat 1 2` is the literal `0.5`. -/
def indicesRandomOf {b s : Nat} (d : Draws b s)
    (mi ir : Fin b → Fin s → Bool) : Fin b → Fin s → Bool :=
  fun i j => (d.randomDraw i j < mkRat 1 2) && mi i j && !(ir i j)

/-- Lines 110 and 117: the input tensor after both in-place substitutions:
mask token at replaced positions, a `randint` draw at random positions,
the original id elsewhere. -/
def corruptedOf {b s : Nat} (inputs : Fin b → Fin s → Int) (maskId : Int)
    (d : Draws b s) (ir irand : Fin b → Fin s → Bool) :
    Fin b → Fin s → Int :=
  fun i j =>
    if irand i j then d.randWords i j
    else if ir i j then maskId else inputs i j

/-- The method `MaskedLanguageModeling.__call__` (lines 65-122): fail when the
tokenizer has no mask token; otherwise build and filter the probability
matrix, sample the target mask, build labels, and apply the three-branch
substitution policy, returning `(corrupted_input, labels)`. -/
def callMLM {b s : Nat} (tok : Tokenizer) (cfg : MLMConfig)
    (inputs : Fin b → Fin s → Int) (weights : Option (List ℚ))
    (wordsTails : Option (Fin b → Fin s → Bool)) (d : Draws b s) :
    Except MLMError ((Fin b → Fin s → Int) × (Fin b → Fin s → Int)) :=
  match tok.maskTokenId with
  | none => .error .configError
  | some maskId =>
    match filteredProbabilityMatrix tok cfg inputs weights wordsTails with
    | .error e => .error e
    | .ok pm =>
      let mi := maskedIndicesOf pm d
      let labels := labelsOf inputs mi
      let ir := indicesReplacedOf d mi
      let irand := indicesRandomOf d mi ir
      .ok (corruptedOf inputs maskId d ir irand, labels)

/-- Decidable equality of `Except` values, used to evaluate the engine on
concrete inputs. -/
instance {ε α : Type} [DecidableEq ε] [DecidableEq α] : DecidableEq (Except ε α) := fun x y =>
  match x, y with
  | .error a, .error b =>
    if h : a = b then isTrue (by rw [h]) else
      isFalse fun hc => h (Except.noConfusion hc id)
  | .error _, .ok _ => isFalse fun hc => Except.noConfusion hc
  | .ok _, .error _ => isFalse fun hc => Except.noConfusion hc
  | .ok a, .ok b =>
    if h : a = b then isTrue (by rw [h]) else
      isFalse fun hc => h (Except.noConfusion hc id)

/-- The entry formula of the weighted probability matrix, written with a
total lookup: `clip(p * (1 + standardized_weight / z))` where the weight
row is `weights[labels[i]]` standardized along the token dimension. -/
def weightedEntry {b s : Nat} (cfg : MLMConfig) (w : List ℚ)
    (labels : Fin b → Fin s → Int) (i : Fin b) (j : Fin s) : ℚ :=
  clip01 (cfg.mlmProbability *
    (1 + normalizeStandard (fun k => (torchIndex w (labels i k)).getD 0) j / cfg.zScore))

/- Concrete instances used to evaluate the engine on small inputs:
one batch row, three positions, a 10-token vocabulary, mask id 103,
pad id 0, position 0 classified special, token id 8 a continuation. -/

def tokEx : Tokenizer :=
  { maskTokenId := some 103
    padTokenId := some 0
    vocabSize := 10
    specialTokensMask := fun _ j => j == 0
    isContinuation := fun id => id == 8 }

def tokNoMask : Tokenizer :=
  { tokEx with maskTokenId := none }

def cfgEx : MLMConfig :=
  { mlmProbability := mkRat 3 20
    reliability := mkRat 1 20
    zScore := mkRat 49 25
    wholeWordMasking := false }

def cfgWW : MLMConfig :=
  { cfgEx with wholeWordMasking := true }

def inputsEx : Fin 1 → Fin 3 → Int :=
  fun _ j => if j.val = 0 then 5 else if j.val = 1 then 7 else 8

/-- An input row whose last position holds the pad token id. -/
def inputsPad : Fin 1 → Fin 3 → Int :=
  fun _ j => if j.val = 0 then 5 else if j.val = 1 then 7 else 0

def dEx : Draws 1 3 :=
  { maskedDraw := fun _ _ => mkRat 1 10
    replacedDraw := fun _ _ => mkRat 1 10
    randomDraw := fun _ _ => mkRat 9 10
    randWords := fun _ _ => 3 }

/-- Weights covering the whole 10-token vocabulary. -/
def wEx : List ℚ := [1, 2, 3, 4, 5, 6, 7, 8, 9, 10]

/-- Weights too short for the vocabulary: token id 5 has no entry. -/
def wBad : List ℚ := [1, 2, 3]

/- The pipeline stages evaluated at the concrete unweighted instance;
`callMLM tokEx cfgEx inputsEx none none dEx` reduces to
`.ok (ciEx, lbEx)` definitionally. -/

def pmEx : Fin 1 → Fin 3 → ℚ :=
  filterPadding tokEx inputsEx (filterSpecial tokEx inputsEx
    (filterWordsTails cfgEx (fun _ _ => cfgEx.mlmProbability)
      (effectiveWordsTails tokEx cfgEx inputsEx none)))

def miEx : Fin 1 → Fin 3 → Bool := maskedIndicesOf pmEx dEx

def lbEx : Fin 1 → Fin 3 → Int := labelsOf inputsEx miEx

def irEx : Fin 1 → Fin 3 → Bool := indicesReplacedOf dEx miEx

def irandEx : Fin 1 → Fin 3 → Bool := indicesRandomOf dEx miEx irEx

def ciEx : Fin 1 → Fin 3 → Int := corruptedOf inputsEx 103 dEx irEx irandEx

/-- An input row with a repeated token id at positions 1 and 2. -/
def inputsRep : Fin 1 → Fin 3 → Int :=
  fun _ j => if j.val = 0 then 5 else 7

/- The pipeline stages at the concrete padded instance. -/

def pmPad : Fin 1 → Fin 3 → ℚ :=
  filterPadding tokEx inputsPad (filterSpecial tokEx inputsPad
    (filterWordsTails cfgEx (fun _ _ => cfgEx.mlmProbability)
      (effectiveWordsTails tokEx cfgEx inputsPad none)))

def miPad : Fin 1 → Fin 3 → Bool := maskedIndicesOf pmPad dEx

def lbPad : Fin 1 → Fin 3 → Int := labelsOf inputsPad miPad

def irPad : Fin 1 → Fin 3 → Bool := indicesReplacedOf dEx miPad

def irandPad : Fin 1 → Fin 3 → Bool := indicesRandomOf dEx miPad irPad

def ciPad : Fin 1 → Fin 3 → Int := corruptedOf inputsPad 103 dEx irPad irandPad

/- The pipeline stages at the concrete whole-word instance. -/

def pmWW : Fin 1 → Fin 3 → ℚ :=
  filterPadding tokEx inputsEx (filterSpecial tokEx inputsEx
    (filterWordsTails cfgWW (fun _ _ => cfgWW.mlmProbability)
      (effectiveWordsTails tokEx cfgWW inputsEx none)))

def miWW : Fin 1 → Fin 3 → Bool := maskedIndicesOf pmWW dEx

def lbWW : Fin 1 → Fin 3 → Int := labelsOf inputsEx miWW

def irWW : Fin 1 → Fin 3 → Bool := indicesReplacedOf dEx miWW

def irandWW : Fin 1 → Fin 3 → Bool := indicesRandomOf dEx miWW irWW

def ciWW : Fin 1 → Fin 3 → Int := corruptedOf inputsEx 103 dEx irWW irandWW

/-! ## Helper lemmas -/

theorem callMLM_ok_inv {b s : Nat} {tok : Tokenizer} {cfg : MLMConfig}
    {inputs : Fin b → Fin s → Int} {weights : Option (List ℚ)}
    {wordsTails : Option (Fin b → Fin s → Bool)} {d : Draws b s}
    {ci lb : Fin b → Fin s → Int}
    (h : callMLM tok cfg inputs weights wordsTails d = .ok (ci, lb)) :
    ∃ m pm, tok.maskTokenId = some m ∧
      filteredProbabilityMatrix tok cfg inputs weights wordsTails = .ok pm ∧
      ci = corruptedOf inputs m d (indicesReplacedOf d (maskedIndicesOf pm d))
        (indicesRandomOf d (maskedIndicesOf pm d)
          (indicesReplacedOf d (maskedIndicesOf pm d))) ∧
      lb = labelsOf inputs (maskedIndicesOf pm d) := by
  unfold callMLM at h
  split at h
  · exact absurd h (by simp)
  next m hm =>
    split at h
    · exact absurd h (by simp)
    next pm hpm =>
      simp only [Except.ok.injEq, Prod.mk.injEq] at h
      exact ⟨m, pm, hm, hpm, h.1.symm, h.2.symm⟩

theorem filteredPM_ok_inv {b s : Nat} {tok : Tokenizer} {cfg : MLMConfig}
    {inputs : Fin b → Fin s → Int} {weights : Option (List ℚ)}
    {wt : Option (Fin b → Fin s → Bool)} {pm : Fin b → Fin s → ℚ}
    (h : filteredProbabilityMatrix tok cfg inputs weights wt = .ok pm) :
    ∃ pm0, probabilityMatrix cfg weights inputs = .ok pm0 ∧
      pm = filterPadding tok inputs (filterSpecial tok inputs
        (filterWordsTails cfg pm0 (effectiveWordsTails tok cfg inputs wt))) := by
  unfold filteredProbabilityMatrix at h
  split at h
  · exact absurd h (by simp)
  next pm0 hpm0 =>
    simp only [Except.ok.injEq] at h
    exact ⟨pm0, hpm0, h.symm⟩

theorem filterPadding_zero {b s : Nat} {tok : Tokenizer}
    {labels : Fin b → Fin s → Int} {pm : Fin b → Fin s → ℚ} {i : Fin b}
    {j : Fin s} (h : pm i j = 0) : filterPadding tok labels pm i j = 0 := by
  unfold filterPadding maskedFill
  cases hp : tok.padTokenId with
  | none => exact h
  | some p =>
    dsimp only
    split
    · rfl
    · exact h

theorem filterSpecial_zero {b s : Nat} {tok : Tokenizer}
    {labels : Fin b → Fin s → Int} {pm : Fin b → Fin s → ℚ} {i : Fin b}
    {j : Fin s} (h : pm i j = 0) : filterSpecial tok labels pm i j = 0 := by
  unfold filterSpecial maskedFill
  split
  · rfl
  · exact h

theorem maskedIndices_false_of_zero {b s : Nat} {pm : Fin b → Fin s → ℚ}
    {d : Draws b s} {i : Fin b} {j : Fin s} (hpm : pm i j = 0)
    (hd : 0 ≤ d.maskedDraw i j) : maskedIndicesOf pm d i j = false := by
  unfold maskedIndicesOf
  rw [hpm]
  exact decide_eq_false (not_lt.mpr hd)

theorem clip01_nonneg (q : ℚ) : 0 ≤ clip01 q := le_max_left 0 _

theorem clip01_le_one (q : ℚ) : clip01 q ≤ 1 :=
  max_le zero_le_one (min_le_left 1 q)

theorem optGet_eq_getD {α : Type} (o : Option α) (h : o.isSome) (v : α) :
    o.get h = o.getD v := by
  cases o with
  | none => simp at h
  | some w => rfl

theorem probabilityMatrix_some_ok {b s : Nat} (cfg : MLMConfig) (w : List ℚ)
    (labels : Fin b → Fin s → Int)
    (hw : ∀ i j, (torchIndex w (labels i j)).isSome) :
    probabilityMatrix cfg (some w) labels =
      .ok fun i j => weightedEntry cfg w labels i j := by
  simp only [probabilityMatrix]
  rw [dif_pos hw]
  congr 1
  funext i j
  unfold weightedEntry
  have hrow : (fun k => (torchIndex w (labels i k)).get (hw i k)) =
      fun k => (torchIndex w (labels i k)).getD 0 :=
    funext fun k => optGet_eq_getD _ (hw i k) 0
  rw [hrow]

theorem probabilityMatrix_some_inv {b s : Nat} {cfg : MLMConfig} {w : List ℚ}
    {labels : Fin b → Fin s → Int} {pm : Fin b → Fin s → ℚ}
    (h : probabilityMatrix cfg (some w) labels = .ok pm) :
    (∀ i j, (torchIndex w (labels i j)).isSome) ∧
      ∀ i j, pm i j = weightedEntry cfg w labels i j := by
  by_cases hw : ∀ i j, (torchIndex w (labels i j)).isSome
  · rw [probabilityMatrix_some_ok cfg w labels hw] at h
    simp only [Except.ok.injEq] at h
    exact ⟨hw, fun i j => by rw [← h]⟩
  · simp only [probabilityMatrix] at h
    rw [dif_neg hw] at h
    exact absurd h (by simp)

theorem probabilityMatrix_error_shape {b s : Nat} {cfg : MLMConfig}
    {weights : Option (List ℚ)} {labels : Fin b → Fin s → Int} {e : MLMError}
    (h : probabilityMatrix cfg weights labels = .error e) : e = .shapeError := by
  cases weights with
  | none => simp [probabilityMatrix] at h
  | some w =>
    by_cases hw : ∀ i j, (torchIndex w (labels i j)).isSome
    · rw [probabilityMatrix_some_ok cfg w labels hw] at h
      exact absurd h (by simp)
    · simp only [probabilityMatrix] at h
      rw [dif_neg hw] at h
      simp only [Except.error.injEq] at h
      exact h.symm

theorem filteredPM_error_shape {b s : Nat} {tok : Tokenizer} {cfg : MLMConfig}
    {inputs : Fin b → Fin s → Int} {weights : Option (List ℚ)}
    {wt : Option (Fin b → Fin s → Bool)} {e : MLMError}
    (h : filteredProbabilityMatrix tok cfg inputs weights wt = .error e) :
    e = .shapeError := by
  unfold filteredProbabilityMatrix at h
  split at h
  next e2 he2 =>
    simp only [Except.error.injEq] at h
    exact h ▸ probabilityMatrix_error_shape he2
  next pm hpm => exact absurd h (by simp)

theorem filterSpecial_special_zero {b s : Nat} {tok : Tokenizer}
    {labels : Fin b → Fin s → Int} {pm : Fin b → Fin s → ℚ} {i : Fin b}
    {j : Fin s}
    (hsp : tok.specialTokensMask (List.ofFn (labels i)) j.val = true) :
    filterSpecial tok labels pm i j = 0 := by
  unfold filterSpecial maskedFill
  simp [hsp]

theorem filterPadding_pad_zero {b s : Nat} {tok : Tokenizer}
    {labels : Fin b → Fin s → Int} {pm : Fin b → Fin s → ℚ} {i : Fin b}
    {j : Fin s} {p : Int} (hp : tok.padTokenId = some p)
    (hval : labels i j = p) : filterPadding tok labels pm i j = 0 := by
  unfold filterPadding maskedFill
  rw [hp]
  dsimp only
  simp [hval]

/-! ## Claim theorems -/

/-- C4: for every input, calling `__call__` with a tokenizer capability
reporting no mask token yields the configuration error (and, the
embedding being pure and failing in its first step, no output pair and no
draw is ever produced, so no sampling and no input mutation happens);
conversely, with a mask token present the configuration error is never
raised. -/
theorem call_mask_token_requirement {b s : Nat} (tok : Tokenizer)
    (cfg : MLMConfig) (inputs : Fin b → Fin s → Int)
    (weights : Option (List ℚ)) (wordsTails : Option (Fin b → Fin s → Bool))
    (d : Draws b s) :
    (tok.maskTokenId = none →
      callMLM tok cfg inputs weights wordsTails d = .error .configError) ∧
    (tok.maskTokenId ≠ none →
      callMLM tok cfg inputs weights wordsTails d ≠ .error .configError) := by
  constructor
  · intro hm
    unfold callMLM
    rw [hm]
  · intro hm hc
    cases he : tok.maskTokenId with
    | none => exact hm he
    | some m =>
      unfold callMLM at hc
      rw [he] at hc
      dsimp only at hc
      cases hf : filteredProbabilityMatrix tok cfg inputs weights wordsTails with
      | error e =>
        rw [hf] at hc
        dsimp only at hc
        simp only [Except.error.injEq] at hc
        have := filteredPM_error_shape hf
        rw [hc] at this
        exact MLMError.noConfusion this
      | ok pm =>
        rw [hf] at hc
        dsimp only at hc
        exact Except.noConfusion hc

/-- C4 witness: a tokenizer without a mask token fails with the
configuration error on the concrete instance, while the concrete tokenizer
with mask id 103 never produces that error there. -/
theorem call_mask_token_requirement_witness :
    callMLM tokNoMask cfgEx inputsEx none none dEx = .error .configError ∧
    callMLM tokEx cfgEx inputsEx none none dEx ≠ .error .configError :=
  ⟨(call_mask_token_requirement tokNoMask cfgEx inputsEx none none dEx).1 rfl,
   (call_mask_token_requirement tokEx cfgEx inputsEx none none dEx).2 (by decide)⟩

/-- C7: when the supplied importance weights are incompatible with the
input batch — some input token id has no aligned weight, so the
`weights[labels]` gather fails — `__call__` fails with the shape-mismatch
(indexing) error; the pure embedding produces the error and no output
pair, so the input tensor of the caller is never mutated. -/
theorem call_weights_shape_mismatch {b s : Nat} (tok : Tokenizer)
    (cfg : MLMConfig) (inputs : Fin b → Fin s → Int) (w : List ℚ)
    (wordsTails : Option (Fin b → Fin s → Bool)) (d : Draws b s) (m : Int)
    (hm : tok.maskTokenId = some m)
    (hbad : ∃ i j, torchIndex w (inputs i j) = none) :
    callMLM tok cfg inputs (some w) wordsTails d = .error .shapeError := by
  have hnall : ¬∀ i j, (torchIndex w (inputs i j)).isSome := by
    obtain ⟨i, j, hij⟩ := hbad
    intro hall
    have h2 := hall i j
    rw [hij] at h2
    exact Bool.noConfusion h2
  have hpm : probabilityMatrix cfg (some w) inputs = .error .shapeError := by
    simp only [probabilityMatrix]
    rw [dif_neg hnall]
  have hf : filteredProbabilityMatrix tok cfg inputs (some w) wordsTails =
      .error .shapeError := by
    unfold filteredProbabilityMatrix
    rw [hpm]
  unfold callMLM
  rw [hm]
  dsimp only
  rw [hf]

/-- C7 witness: a 3-entry weight list cannot serve the concrete input
holding token id 5, and the call fails with the shape error. -/
theorem call_weights_shape_mismatch_witness :
    (∃ i j, torchIndex wBad (inputsEx i j) = none) ∧
    callMLM tokEx cfgEx inputsEx (some wBad) none dEx = .error .shapeError :=
  ⟨by decide,
   call_weights_shape_mismatch tokEx cfgEx inputsEx wBad none dEx 103 rfl (by decide)⟩

/-- C8: `__call__` is deterministic as a two-run property: two invocations
agreeing on the input tensor, the weights, the configuration, the
words-tails argument and the random draw sequence return identical
`(corrupted_input, labels)` results.  In the embedding the random draw
sequence is an explicit argument, so the property is congruence of the
pure transform. -/
theorem call_deterministic {b s : Nat} (tok : Tokenizer) (cfg : MLMConfig)
    (inputs1 inputs2 : Fin b → Fin s → Int)
    (weights1 weights2 : Option (List ℚ))
    (t1 t2 : Option (Fin b → Fin s → Bool)) (d1 d2 : Draws b s)
    (hi : inputs1 = inputs2) (hw : weights1 = weights2) (ht : t1 = t2)
    (hd : d1 = d2) :
    callMLM tok cfg inputs1 weights1 t1 d1 =
      callMLM tok cfg inputs2 weights2 t2 d2 := by
  subst hi hw ht hd
  rfl

/-- C8 witness: two identical concrete invocations agree. -/
theorem call_deterministic_witness :
    callMLM tokEx cfgEx inputsEx none none dEx =
      callMLM tokEx cfgEx inputsEx none none dEx :=
  call_deterministic tokEx cfgEx inputsEx inputsEx none none none none dEx dEx
    rfl rfl rfl rfl

/-- C10: with whole-word masking disabled, the output of `__call__` does
not depend on the `words_tails` argument — any two supplied masks
(including none) give identical results under the same draws — and the
continuation mask is never computed internally: the effective words-tails
value is exactly the argument given by the caller. -/
theorem call_words_tails_independent {b s : Nat} (tok : Tokenizer)
    (cfg : MLMConfig) (inputs : Fin b → Fin s → Int)
    (weights : Option (List ℚ)) (d : Draws b s)
    (t1 t2 : Option (Fin b → Fin s → Bool))
    (hww : cfg.wholeWordMasking = false) :
    callMLM tok cfg inputs weights t1 d = callMLM tok cfg inputs weights t2 d ∧
    effectiveWordsTails tok cfg inputs t1 = t1 := by
  have heff : ∀ t : Option (Fin b → Fin s → Bool),
      effectiveWordsTails tok cfg inputs t = t := by
    intro t
    unfold effectiveWordsTails
    rw [hww]
    simp
  have hfil : ∀ (pm : Fin b → Fin s → ℚ) (t : Option (Fin b → Fin s → Bool)),
      filterWordsTails cfg pm (effectiveWordsTails tok cfg inputs t) = pm := by
    intro pm t
    unfold filterWordsTails
    rw [hww]
    simp
  refine ⟨?_, heff t1⟩
  have hpm : filteredProbabilityMatrix tok cfg inputs weights t1 =
      filteredProbabilityMatrix tok cfg inputs weights t2 := by
    unfold filteredProbabilityMatrix
    cases hpm0 : probabilityMatrix cfg weights inputs with
    | error e => rfl
    | ok pm0 =>
      dsimp only
      rw [hfil pm0 t1, hfil pm0 t2]
  unfold callMLM
  rw [hpm]

/-- C10 witness: with whole-word masking off, supplying the computed tails
mask and supplying none give the same concrete result, and the effective
tails value is the supplied argument itself. -/
theorem call_words_tails_independent_witness :
    (callMLM tokEx cfgEx inputsEx none (some (wholeWordTailsMask tokEx inputsEx)) dEx =
      callMLM tokEx cfgEx inputsEx none none dEx) ∧
    effectiveWordsTails tokEx cfgEx inputsEx
      (some (wholeWordTailsMask tokEx inputsEx)) =
      some (wholeWordTailsMask tokEx inputsEx) :=
  call_words_tails_independent tokEx cfgEx inputsEx none dEx
    (some (wholeWordTailsMask tokEx inputsEx)) none rfl

/-- C1: when every input token id differs from the ignore marker, the
returned pair satisfies the reconstruction invariant: wherever the label
is the ignore marker the corrupted input equals the original input, and
wherever it is not, the label equals the original input — so substituting
labels back into the corrupted input at non-ignored positions reproduces
the original input exactly. -/
theorem call_reconstruction_invariant {b s : Nat} (tok : Tokenizer)
    (cfg : MLMConfig) (inputs : Fin b → Fin s → Int)
    (weights : Option (List ℚ)) (wordsTails : Option (Fin b → Fin s → Bool))
    (d : Draws b s) (ci lb : Fin b → Fin s → Int)
    (hids : ∀ i j, inputs i j ≠ IGNORE_IDX)
    (h : callMLM tok cfg inputs weights wordsTails d = .ok (ci, lb)) :
    ∀ i j, (lb i j = IGNORE_IDX → ci i j = inputs i j) ∧
      (lb i j ≠ IGNORE_IDX → lb i j = inputs i j) := by
  obtain ⟨m, pm, hm, hpm, hci, hlb⟩ := callMLM_ok_inv h
  subst hci hlb
  intro i j
  by_cases hmi : maskedIndicesOf pm d i j = true
  · constructor
    · intro hlb0
      simp only [labelsOf, hmi, if_true] at hlb0
      exact absurd hlb0 (hids i j)
    · intro _
      simp [labelsOf, hmi]
  · have hmi2 : maskedIndicesOf pm d i j = false := by
      simpa using hmi
    constructor
    · intro _
      simp [corruptedOf, indicesRandomOf, indicesReplacedOf, hmi2]
    · intro hne
      exact absurd (by simp [labelsOf, hmi2]) hne

/-- C1 witness: the invariant at the concrete unweighted instance. -/
theorem call_reconstruction_invariant_witness :
    (∀ i j, inputsEx i j ≠ IGNORE_IDX) ∧
    ∀ i j, (lbEx i j = IGNORE_IDX → ciEx i j = inputsEx i j) ∧
      (lbEx i j ≠ IGNORE_IDX → lbEx i j = inputsEx i j) :=
  ⟨by decide,
   call_reconstruction_invariant tokEx cfgEx inputsEx none none dEx ciEx lbEx
     (by decide) rfl⟩

/-- C2: positions the tokenizer capability classifies as special, and
positions holding the pad-token id when the tokenizer defines one, are
never training targets: the label there is the ignore marker, for every
draw sequence whose bernoulli uniforms are nonnegative. -/
theorem call_structural_exclusion {b s : Nat} (tok : Tokenizer)
    (cfg : MLMConfig) (inputs : Fin b → Fin s → Int)
    (weights : Option (List ℚ)) (wordsTails : Option (Fin b → Fin s → Bool))
    (d : Draws b s) (ci lb : Fin b → Fin s → Int)
    (hd : ∀ i j, 0 ≤ d.maskedDraw i j)
    (h : callMLM tok cfg inputs weights wordsTails d = .ok (ci, lb)) :
    ∀ i j, (tok.specialTokensMask (List.ofFn (inputs i)) j.val = true ∨
        (∃ p, tok.padTokenId = some p ∧ inputs i j = p)) →
      lb i j = IGNORE_IDX := by
  obtain ⟨m, pm, hm, hpm, hci, hlb⟩ := callMLM_ok_inv h
  subst hlb
  intro i j hcase
  obtain ⟨pm0, hpm0, hpmeq⟩ := filteredPM_ok_inv hpm
  subst hpmeq
  have hz : filterPadding tok inputs (filterSpecial tok inputs
      (filterWordsTails cfg pm0 (effectiveWordsTails tok cfg inputs wordsTails)))
      i j = 0 := by
    rcases hcase with hsp | ⟨p, hp, hval⟩
    · exact filterPadding_zero (filterSpecial_special_zero hsp)
    · exact filterPadding_pad_zero hp hval
  simp [labelsOf, maskedIndices_false_of_zero hz (hd i j)]

/-- C2 witness: at the concrete padded instance, position 0 is special and
position 2 holds the pad token; both labels are the ignore marker. -/
theorem call_structural_exclusion_witness :
    (∀ i j, 0 ≤ dEx.maskedDraw i j) ∧
    ∀ i j, (tokEx.specialTokensMask (List.ofFn (inputsPad i)) j.val = true ∨
        (∃ p, tokEx.padTokenId = some p ∧ inputsPad i j = p)) →
      lbPad i j = IGNORE_IDX :=
  ⟨by decide,
   call_structural_exclusion tokEx cfgEx inputsPad none none dEx ciPad lbPad
     (by decide) rfl⟩

/-- C6: with whole-word masking enabled, no position marked true in the
effective continuation mask (the supplied one, or the internally computed
one when none is supplied) is ever selected as a target: its label is the
ignore marker for every draw sequence with nonnegative bernoulli
uniforms. -/
theorem call_whole_word_exclusion {b s : Nat} (tok : Tokenizer)
    (cfg : MLMConfig) (inputs : Fin b → Fin s → Int)
    (weights : Option (List ℚ)) (wordsTails : Option (Fin b → Fin s → Bool))
    (d : Draws b s) (ci lb : Fin b → Fin s → Int)
    (t : Fin b → Fin s → Bool)
    (hww : cfg.wholeWordMasking = true)
    (hd : ∀ i j, 0 ≤ d.maskedDraw i j)
    (ht : effectiveWordsTails tok cfg inputs wordsTails = some t)
    (h : callMLM tok cfg inputs weights wordsTails d = .ok (ci, lb)) :
    ∀ i j, t i j = true → lb i j = IGNORE_IDX := by
  obtain ⟨m, pm, hm, hpm, hci, hlb⟩ := callMLM_ok_inv h
  subst hlb
  intro i j htt
  obtain ⟨pm0, hpm0, hpmeq⟩ := filteredPM_ok_inv hpm
  subst hpmeq
  have h1 : filterWordsTails cfg pm0
      (effectiveWordsTails tok cfg inputs wordsTails) i j = 0 := by
    unfold filterWordsTails
    rw [hww, ht]
    simp [maskedFill, htt]
  have hz := @filterPadding_zero b s tok inputs _ i j
    (@filterSpecial_zero b s tok inputs _ i j h1)
  simp [labelsOf, maskedIndices_false_of_zero hz (hd i j)]

/-- C6 witness: at the concrete whole-word instance the internally
computed tails mask marks position 2 (token id 8), whose label is the
ignore marker. -/
theorem call_whole_word_exclusion_witness :
    cfgWW.wholeWordMasking = true ∧
    (∀ i j, 0 ≤ dEx.maskedDraw i j) ∧
    ∀ i j, wholeWordTailsMask tokEx inputsEx i j = true →
      lbWW i j = IGNORE_IDX :=
  ⟨rfl, by decide,
   call_whole_word_exclusion tokEx cfgWW inputsEx none none dEx ciWW lbWW
     (wholeWordTailsMask tokEx inputsEx) rfl (by decide) rfl rfl⟩

/-- C5: in the weighted case the probability matrix entry at `(i, j)` is
`clip01(mlm_probability * (1 + standardized_weight / z_score))`, where the
weight row looked up by the input token ids is standardized along the
token dimension and `z_score` is the configured two-sided critical value;
consequently every entry lies in `[0, 1]`, whatever the weight
magnitudes. -/
theorem weighted_probability_bounded {b s : Nat} (cfg : MLMConfig)
    (w : List ℚ) (labels : Fin b → Fin s → Int)
    (hw : ∀ i j, (torchIndex w (labels i j)).isSome) :
    ∃ pm, probabilityMatrix cfg (some w) labels = .ok pm ∧
      (∀ i j, pm i j = clip01 (cfg.mlmProbability *
        (1 + normalizeStandard (fun k => (torchIndex w (labels i k)).getD 0) j /
          cfg.zScore))) ∧
      ∀ i j, 0 ≤ pm i j ∧ pm i j ≤ 1 :=
  ⟨_, probabilityMatrix_some_ok cfg w labels hw, fun _ _ => rfl,
   fun _ _ => ⟨clip01_nonneg _, clip01_le_one _⟩⟩

/-- C5 witness: the weighted probability matrix at the concrete instance
exists, follows the formula and is bounded in `[0, 1]`. -/
theorem weighted_probability_bounded_witness :
    (∀ i j, (torchIndex wEx (inputsEx i j)).isSome) ∧
    ∃ pm, probabilityMatrix cfgEx (some wEx) inputsEx = .ok pm ∧
      (∀ i j, pm i j = clip01 (cfgEx.mlmProbability *
        (1 + normalizeStandard (fun k => (torchIndex wEx (inputsEx i k)).getD 0) j /
          cfgEx.zScore))) ∧
      ∀ i j, 0 ≤ pm i j ∧ pm i j ≤ 1 :=
  ⟨by decide, weighted_probability_bounded cfgEx wEx inputsEx (by decide)⟩

/-- C9: in the weighted case the per-position masking probability depends
only on the token id at that position: within a row, two positions holding
the same token id receive identical probability matrix entries before
filtering. -/
theorem weighted_probability_token_lookup {b s : Nat} (cfg : MLMConfig)
    (w : List ℚ) (labels : Fin b → Fin s → Int) (pm : Fin b → Fin s → ℚ)
    (h : probabilityMatrix cfg (some w) labels = .ok pm) :
    ∀ (i : Fin b) (j k : Fin s), labels i j = labels i k →
      pm i j = pm i k := by
  obtain ⟨hw, he⟩ := probabilityMatrix_some_inv h
  intro i j k heq
  rw [he i j, he i k]
  have hval : (torchIndex w (labels i j)).getD 0 =
      (torchIndex w (labels i k)).getD 0 := by rw [heq]
  unfold weightedEntry normalizeStandard
  dsimp only
  rw [hval]

/-- C9 witness: positions 1 and 2 of the repeated-token row hold the same
token id and receive the same weighted probability entry. -/
theorem weighted_probability_token_lookup_witness :
    inputsRep 0 1 = inputsRep 0 2 ∧
    weightedEntry cfgEx wEx inputsRep 0 1 = weightedEntry cfgEx wEx inputsRep 0 2 :=
  ⟨by decide,
   weighted_probability_token_lookup cfgEx wEx inputsRep
     (fun i j => weightedEntry cfgEx wEx inputsRep i j)
     (probabilityMatrix_some_ok cfgEx wEx inputsRep (by decide)) 0 1 2 (by decide)⟩

/-- C3: the targets are partitioned into three pairwise-disjoint groups by
Bernoulli draws in a fixed order, each confined to the still-undecided
target positions: the `Bernoulli(0.8)` group is replaced with the
mask-token id, of the remainder the `Bernoulli(0.5)` group is replaced
with the `randint` draw lying in `[0, vocab_size)`, and the remaining
targets keep their original id; non-target positions are never
modified. -/
theorem call_substitution_partition {b s : Nat} (tok : Tokenizer)
    (cfg : MLMConfig) (inputs : Fin b → Fin s → Int)
    (weights : Option (List ℚ)) (wordsTails : Option (Fin b → Fin s → Bool))
    (d : Draws b s) (ci lb : Fin b → Fin s → Int) (m : Int)
    (hm : tok.maskTokenId = some m)
    (hids : ∀ i j, inputs i j ≠ IGNORE_IDX)
    (hrange : ∀ i j, 0 ≤ d.randWords i j ∧ d.randWords i j < (tok.vocabSize : Int))
    (h : callMLM tok cfg inputs weights wordsTails d = .ok (ci, lb)) :
    ∃ R S K : Fin b → Fin s → Bool,
      (∀ i j, R i j = (decide (d.replacedDraw i j < mkRat 4 5) &&
        decide (lb i j ≠ IGNORE_IDX))) ∧
      (∀ i j, S i j = (decide (d.randomDraw i j < mkRat 1 2) &&
        decide (lb i j ≠ IGNORE_IDX) && !(R i j))) ∧
      (∀ i j, K i j = (decide (lb i j ≠ IGNORE_IDX) && !(R i j) && !(S i j))) ∧
      (∀ i j, ¬(R i j = true ∧ S i j = true) ∧ ¬(R i j = true ∧ K i j = true) ∧
        ¬(S i j = true ∧ K i j = true)) ∧
      (∀ i j, lb i j ≠ IGNORE_IDX ↔ (R i j = true ∨ S i j = true ∨ K i j = true)) ∧
      (∀ i j, R i j = true → ci i j = m) ∧
      (∀ i j, S i j = true → ci i j = d.randWords i j ∧ 0 ≤ ci i j ∧
        ci i j < (tok.vocabSize : Int)) ∧
      (∀ i j, K i j = true → ci i j = inputs i j) ∧
      (∀ i j, lb i j = IGNORE_IDX → ci i j = inputs i j) := by
  obtain ⟨m2, pm, hm2, hpm, hci, hlb⟩ := callMLM_ok_inv h
  rw [hm] at hm2
  injection hm2 with hmm
  subst hmm
  subst hci hlb
  have hdec : ∀ i j,
      decide (labelsOf inputs (maskedIndicesOf pm d) i j ≠ IGNORE_IDX) =
        maskedIndicesOf pm d i j := by
    intro i j
    unfold labelsOf
    cases hmi : maskedIndicesOf pm d i j with
    | true => simpa using hids i j
    | false => simp
  refine ⟨indicesReplacedOf d (maskedIndicesOf pm d),
    indicesRandomOf d (maskedIndicesOf pm d)
      (indicesReplacedOf d (maskedIndicesOf pm d)),
    fun i j => maskedIndicesOf pm d i j &&
      !(indicesReplacedOf d (maskedIndicesOf pm d) i j) &&
      !(indicesRandomOf d (maskedIndicesOf pm d)
          (indicesReplacedOf d (maskedIndicesOf pm d)) i j),
    fun i j => ?_, fun i j => ?_, fun i j => ?_, fun i j => ?_, fun i j => ?_,
    fun i j hR => ?_, fun i j hS => ?_, fun i j hK => ?_, fun i j hIGN => ?_⟩
  · rw [hdec i j]
    rfl
  · rw [hdec i j]
    rfl
  · rw [hdec i j]
  · refine ⟨?_, ?_, ?_⟩
    · rintro ⟨h1, h2⟩
      simp [indicesRandomOf, h1] at h2
    · rintro ⟨h1, h2⟩
      simp [h1] at h2
    · rintro ⟨h1, h2⟩
      simp [h1] at h2
  · have hP : (labelsOf inputs (maskedIndicesOf pm d) i j ≠ IGNORE_IDX) ↔
        maskedIndicesOf pm d i j = true := by
      rw [← hdec i j]
      exact decide_eq_true_iff.symm
    rw [hP]
    constructor
    · intro hmi
      by_cases hR : indicesReplacedOf d (maskedIndicesOf pm d) i j = true
      · exact Or.inl hR
      · have hRf : indicesReplacedOf d (maskedIndicesOf pm d) i j = false := by
          simpa using hR
        by_cases hS : indicesRandomOf d (maskedIndicesOf pm d)
            (indicesReplacedOf d (maskedIndicesOf pm d)) i j = true
        · exact Or.inr (Or.inl hS)
        · have hSf : indicesRandomOf d (maskedIndicesOf pm d)
              (indicesReplacedOf d (maskedIndicesOf pm d)) i j = false := by
            simpa using hS
          refine Or.inr (Or.inr ?_)
          simp [hmi, hRf, hSf]
    · rintro (hR | hS | hK)
      · have h2 := hR
        simp only [indicesReplacedOf, Bool.and_eq_true] at h2
        exact h2.2
      · have h2 := hS
        simp only [indicesRandomOf, Bool.and_eq_true] at h2
        exact h2.1.2
      · have h2 := hK
        simp only [Bool.and_eq_true] at h2
        exact h2.1.1
  · have hSf : indicesRandomOf d (maskedIndicesOf pm d)
        (indicesReplacedOf d (maskedIndicesOf pm d)) i j = false := by
      simp [indicesRandomOf, hR]
    simp [corruptedOf, hSf, hR]
  · have hcival : corruptedOf inputs m d
        (indicesReplacedOf d (maskedIndicesOf pm d))
        (indicesRandomOf d (maskedIndicesOf pm d)
          (indicesReplacedOf d (maskedIndicesOf pm d))) i j =
        d.randWords i j := by
      simp [corruptedOf, hS]
    refine ⟨hcival, ?_, ?_⟩
    · rw [hcival]
      exact (hrange i j).1
    · rw [hcival]
      exact (hrange i j).2
  · simp only [Bool.and_eq_true, Bool.not_eq_true'] at hK
    simp [corruptedOf, hK.1.2, hK.2]
  · have hmif : maskedIndicesOf pm d i j = false := by
      have hd2 := hdec i j
      rw [hIGN] at hd2
      simpa using hd2.symm
    have hRf : indicesReplacedOf d (maskedIndicesOf pm d) i j = false := by
      simp [indicesReplacedOf, hmif]
    have hSf : indicesRandomOf d (maskedIndicesOf pm d)
        (indicesReplacedOf d (maskedIndicesOf pm d)) i j = false := by
      simp [indicesRandomOf, hmif]
    simp [corruptedOf, hRf, hSf]

/-- C3 witness: the partition at the concrete unweighted instance. -/
theorem call_substitution_partition_witness :
    (∀ i j, inputsEx i j ≠ IGNORE_IDX) ∧
    ∃ R S K : Fin 1 → Fin 3 → Bool,
      (∀ i j, R i j = (decide (dEx.replacedDraw i j < mkRat 4 5) &&
        decide (lbEx i j ≠ IGNORE_IDX))) ∧
      (∀ i j, S i j = (decide (dEx.randomDraw i j < mkRat 1 2) &&
        decide (lbEx i j ≠ IGNORE_IDX) && !(R i j))) ∧
      (∀ i j, K i j = (decide (lbEx i j ≠ IGNORE_IDX) && !(R i j) && !(S i j))) ∧
      (∀ i j, ¬(R i j = true ∧ S i j = true) ∧ ¬(R i j = true ∧ K i j = true) ∧
        ¬(S i j = true ∧ K i j = true)) ∧
      (∀ i j, lbEx i j ≠ IGNORE_IDX ↔ (R i j = true ∨ S i j = true ∨ K i j = true)) ∧
      (∀ i j, R i j = true → ciEx i j = 103) ∧
      (∀ i j, S i j = true → ciEx i j = dEx.randWords i j ∧ 0 ≤ ciEx i j ∧
        ciEx i j < (tokEx.vocabSize : Int)) ∧
      (∀ i j, K i j = true → ciEx i j = inputsEx i j) ∧
      (∀ i j, lbEx i j = IGNORE_IDX → ciEx i j = inputsEx i j) :=
  ⟨by decide,
   call_substitution_partition tokEx cfgEx inputsEx none none dEx ciEx lbEx 103
     rfl (by decide) (by decide) rfl⟩

end MLM
